import Mathlib

/-!
Verification development for `src/analyse_holes.py`.

The script is a single-pass pandas pipeline over a part-level table:
parse the JSON `holes` column, explode it into one row per hole, compute
`ratio = length / radius` with warning (> 20) and error (> 80) flags, group
by part `uuid`, left-join the two flags back onto the part table, write the
augmented table as a parquet file, then convert lengths to millimetres
(raising on an unknown unit), derive volumes, and write a spreadsheet.

The embedding below models the table operations on Lean lists, numeric
columns as exact rationals, and float division (which can produce `inf` /
`nan` in numpy rather than raising) through the extended value type `FVal`.
The float constant `np.pi` of line 122 is a parameter `piC` of the
conversion stage.  Fallible steps return `Except`, and the two file writes
are recorded in order by `runPipeline` so that "which outputs exist when a
run aborts" is expressible.
-/

/-- An extended numeric value: the result of a float computation that may
be infinite or NaN (numpy float division by zero yields `inf`, `-inf` or
`nan` instead of raising). Finite values are exact rationals. -/
inductive FVal where
  | real (q : ℚ)
  | posInf
  | negInf
  | nan
deriving DecidableEq

/-- Float division semantics used for `holes['length'] / holes['radius']`
(line 21): ordinary division when the denominator is nonzero, otherwise
`inf` / `-inf` / `nan` according to the numerator's sign. -/
def floatDiv (a b : ℚ) : FVal :=
  if b ≠ 0 then .real (a / b)
  else if 0 < a then .posInf
  else if a < 0 then .negInf
  else .nan

/-- Boolean strict comparison `v > t` as the code computes it on line 24-25
(`holes['ratio'] > 20`): `inf` exceeds every threshold, `-inf` and `nan`
exceed none. -/
def FVal.fgt : FVal → ℚ → Bool
  | .real a, t => decide (t < a)
  | .posInf, _ => true
  | .negInf, _ => false
  | .nan, _ => false

/-- The proposition "the value is strictly greater than the rational
threshold `t`", the mathematical reading of the spec's "ratio > 20". -/
def FVal.GtQ : FVal → ℚ → Prop
  | .real a, t => t < a
  | .posInf, _ => True
  | .negInf, _ => False
  | .nan, _ => False

instance instDecidableGtQ (v : FVal) (t : ℚ) : Decidable (FVal.GtQ v t) :=
  match v with
  | .real a => inferInstanceAs (Decidable (t < a))
  | .posInf => isTrue trivial
  | .negInf => isFalse (fun h => h)
  | .nan => isFalse (fun h => h)

/-- One decoded hole descriptor (an element of the parsed `holes` list). -/
structure Hole where
  length : ℚ
  radius : ℚ
deriving DecidableEq

/-- One row of the input part-level table. `holes` is `none` when the JSON
column is null; an entry of the decoded list is `none` when it is a JSON
null. `created` stands for the creation timestamp and `otherCols` for the
remaining columns of the fixed schema, which the pipeline carries along
unchanged; `uuid` and `units` are taken non-null, as the script assumes. -/
structure PartRecord where
  uuid : String
  created : Int
  units : String
  holes : Option (List (Option Hole))
  otherCols : List (Option String)
deriving DecidableEq

/-- One row of the exploded holes table (lines 12-16): the parent part's
`uuid`, `created` and `units`, plus one non-null hole descriptor. -/
structure HoleRow where
  uuid : String
  created : Int
  units : String
  hole : Hole
deriving DecidableEq

/-- Lines 12-16: `data[['uuid','created','units','holes']].explode('holes').dropna()`.
A null `holes` column or an empty list explodes to a NaN row which `dropna`
removes, and null list entries are likewise dropped, so a part contributes
exactly the non-null entries of its decoded hole list. -/
def explodeHoles (data : List PartRecord) : List HoleRow :=
  data.flatMap (fun p =>
    ((p.holes.getD []).filterMap id).map
      (fun h => ⟨p.uuid, p.created, p.units, h⟩))

/-- A row of the holes table after lines 19-25 added the `length`, `radius`,
`ratio` and the two flag columns. -/
structure FlaggedRow where
  uuid : String
  created : Int
  units : String
  hole : Hole
  length : ℚ
  radius : ℚ
  ratioCol : FVal
  has_unreachable_hole_warning : Bool
  has_unreachable_hole_error : Bool
deriving DecidableEq

/-- Lines 19-25 applied to one exploded row: extract length and radius,
compute `ratio = length / radius` (float division), and set
`has_unreachable_hole_warning = ratio > 20` and
`has_unreachable_hole_error = ratio > 80`. -/
def flagRow (r : HoleRow) : FlaggedRow :=
  let l := r.hole.length
  let rad := r.hole.radius
  let q := floatDiv l rad
  ⟨r.uuid, r.created, r.units, r.hole, l, rad, q, q.fgt 20, q.fgt 80⟩

/-- The holes table as it stands after line 25. -/
def flaggedTable (data : List PartRecord) : List FlaggedRow :=
  (explodeHoles data).map flagRow

/-- One row of `holes_by_object` (lines 28-44): count of holes and the
any/sum aggregates of the two flags for one `uuid` group. -/
structure HolesAgg where
  holes_amount : Nat
  has_unreachable_hole_warning : Bool
  amount_unreachable_hole_warning : Nat
  has_unreachable_hole_error : Bool
  amount_unreachable_hole_error : Nat
deriving DecidableEq

/-- The aggregation of lines 31-35 over the group of rows sharing `uuid = u`:
`count`, `any` and `sum` (a sum of booleans in pandas is the count of the
true ones). -/
def aggForUuid (rows : List FlaggedRow) (u : String) : HolesAgg :=
  let g := rows.filter (fun r => r.uuid == u)
  ⟨g.length,
   g.any (fun r => r.has_unreachable_hole_warning),
   g.countP (fun r => r.has_unreachable_hole_warning),
   g.any (fun r => r.has_unreachable_hole_error),
   g.countP (fun r => r.has_unreachable_hole_error)⟩

/-- Lines 28-44: `holes.groupby('uuid').agg(...)`, an association list from
each distinct `uuid` of the holes table to its aggregate row. `groupby`
produces one row per distinct key (pandas orders the keys sorted; the key
order is irrelevant to every property below, only the key set and the
uniqueness of keys matter). -/
def holes_by_object (rows : List FlaggedRow) : List (String × HolesAgg) :=
  ((rows.map (fun r => r.uuid)).dedup).map (fun u => (u, aggForUuid rows u))

/-- One row of the augmented part-level table written as `output.gz.parquet`:
the original record plus the two joined flag columns, which are missing
(`none`) when the part's `uuid` has no row in `holes_by_object`. -/
structure OutRow where
  part : PartRecord
  has_unreachable_hole_warning : Option Bool
  has_unreachable_hole_error : Option Bool
deriving DecidableEq

/-- The rows a left merge produces for one left row `p`: one output row per
right row whose key matches `p.uuid`, or a single row with NaN flags when
none matches. -/
def mergeRowsFor (right : List (String × HolesAgg)) (p : PartRecord) :
    List OutRow :=
  match right.filter (fun x => x.1 == p.uuid) with
  | [] => [⟨p, none, none⟩]
  | ms => ms.map (fun m =>
      ⟨p, some m.2.has_unreachable_hole_warning,
          some m.2.has_unreachable_hole_error⟩)

/-- Lines 48-54: `pd.merge(data, holes_by_object[[...]], how='left',
left_on='uuid', right_index=True)`. Each left row is paired with every
matching right row (in general a left merge can duplicate a left row when
the right side has duplicate keys), and with NaN flags when none matches. -/
def leftMerge (data : List PartRecord) (right : List (String × HolesAgg)) :
    List OutRow :=
  data.flatMap (mergeRowsFor right)

/-- The augmented table of line 48, the content of the first output file. -/
def outputTable (data : List PartRecord) : List OutRow :=
  leftMerge data (holes_by_object (flaggedTable data))

/-- Lines 106-114: `get_conversion`, the unit-to-millimetre factor; any
unit other than `mm`, `in`, `cm` raises. -/
def get_conversion (unit : String) : Except String ℚ :=
  if unit = "mm" then .ok 1
  else if unit = "in" then .ok 25.4
  else if unit = "cm" then .ok 10
  else .error ("Conversion from " ++ unit ++ " to mm is not implemented")

/-- A row of the holes table after lines 116-124: lengths and radii scaled
to millimetres, `volume` derived, and the `units` and `conversion` columns
dropped. The other columns (`ratio`, flags) are untouched. -/
structure FinalRow where
  uuid : String
  created : Int
  hole : Hole
  length : ℚ
  radius : ℚ
  ratioCol : FVal
  has_unreachable_hole_warning : Bool
  has_unreachable_hole_error : Bool
  volume : ℚ
deriving DecidableEq

/-- Lines 118-122 applied to one row with conversion factor `c` and the
float constant `np.pi` as `piC`: `length *= c`, `radius *= c`,
`volume = pi * radius ** 2 * length` on the converted values. -/
def convertRow (piC : ℚ) (c : ℚ) (r : FlaggedRow) : FinalRow :=
  let l := r.length * c
  let rad := r.radius * c
  ⟨r.uuid, r.created, r.hole, l, rad, r.ratioCol,
   r.has_unreachable_hole_warning, r.has_unreachable_hole_error,
   piC * rad ^ 2 * l⟩

/-- Lines 116-122 over the whole table: `holes['units'].map(get_conversion)`
raises at the first unrecognized unit, otherwise every row is converted. -/
def convertRows (piC : ℚ) : List FlaggedRow → Except String (List FinalRow)
  | [] => .ok []
  | r :: rs =>
    match get_conversion r.units with
    | .error e => .error e
    | .ok c =>
      match convertRows piC rs with
      | .error e => .error e
      | .ok out => .ok (convertRow piC c r :: out)

/-- The two output files of the script. -/
inductive OutputFile where
  | parquet
  | xlsx
deriving DecidableEq

/-- The pipeline's effect order: the augmented parquet file is written on
line 57, the unit conversion that can raise runs on line 116, and the
spreadsheet is written on lines 159-188. The first component lists the
files written, in order; the second is the run's outcome. -/
def runPipeline (piC : ℚ) (data : List PartRecord) :
    List OutputFile × Except String Unit :=
  let rows := flaggedTable data
  match convertRows piC rows with
  | .error e => ([.parquet], .error e)
  | .ok _ => ([.parquet, .xlsx], .ok ())

/-- Lines 97-98: the percentage column of a summary sheet, each absolute
count divided by the sheet's population total. -/
def percentageColumn (counts : List ℚ) (total : ℚ) : List ℚ :=
  counts.map (fun c => c / total)

/-- Lines 77-84: the absolute counts of the `objects` summary block. -/
def objectsSummaryCounts (data : List PartRecord) : List ℚ :=
  let agg := holes_by_object (flaggedTable data)
  [(data.length : ℚ),
   (agg.length : ℚ),
   (agg.countP (fun x => x.2.has_unreachable_hole_warning) : ℚ),
   (agg.countP (fun x => decide (1 < x.2.amount_unreachable_hole_warning)) : ℚ),
   (agg.countP (fun x => x.2.has_unreachable_hole_error) : ℚ),
   (agg.countP (fun x => decide (1 < x.2.amount_unreachable_hole_error)) : ℚ)]

/-- Lines 85-89: the absolute counts of the `holes` summary block. -/
def holesSummaryCounts (rows : List FlaggedRow) : List ℚ :=
  [(rows.length : ℚ),
   (rows.countP (fun r => r.has_unreachable_hole_warning) : ℚ),
   (rows.countP (fun r => r.has_unreachable_hole_error) : ℚ)]

/-- Line 97: the percentage column of the `objects` sheet, population
`data.shape[0]`. -/
def objectsSheetPercentage (data : List PartRecord) : List ℚ :=
  percentageColumn (objectsSummaryCounts data) (data.length : ℚ)

/-- Line 98: the percentage column of the `holes` sheet, population
`holes.shape[0]`. -/
def holesSheetPercentage (data : List PartRecord) : List ℚ :=
  percentageColumn (holesSummaryCounts (flaggedTable data))
    ((flaggedTable data).length : ℚ)

/-! Concrete sample data for witnesses and counterexamples. -/

/-- A sample hole with ratio 30. -/
def hole0 : Hole := ⟨30, 1⟩

/-- A sample part in millimetres holding `hole0`. -/
def part0 : PartRecord := ⟨"a", 0, "mm", some [some hole0], []⟩

/-- A part whose `holes` column is null. -/
def partNone : PartRecord := ⟨"b", 0, "mm", none, []⟩

/-- A part with an unrecognized unit. -/
def partBad : PartRecord := ⟨"c", 0, "ft", some [some ⟨5, 1⟩], []⟩

/-- A one-part dataset. -/
def d0 : List PartRecord := [part0]

/-- A dataset with one part with a hole and one with a null hole list. -/
def d1 : List PartRecord := [part0, partNone]

/-- A dataset that makes the unit-conversion stage raise. -/
def dBad : List PartRecord := [partBad]

/-- The exploded row of `d0`. -/
def hr0 : HoleRow := ⟨"a", 0, "mm", hole0⟩

/-- The flagged row of `d0`. -/
def row0 : FlaggedRow := flagRow hr0

/-- The converted row of `d0`, with `np.pi` taken as 3. -/
def final0 : FinalRow := convertRow 3 1 row0

/-- The converted table of `d0`. -/
def out0 : List FinalRow := [final0]

/-- A hole row with radius zero and positive length. -/
def hrZ : HoleRow := ⟨"z", 0, "mm", ⟨5, 0⟩⟩

/-! Helper lemmas. -/

lemma fgt_iff_GtQ (v : FVal) (t : ℚ) : v.fgt t = true ↔ v.GtQ t := by
  cases v <;> simp [FVal.fgt, FVal.GtQ]

lemma fgt_le_mono {v : FVal} {s t : ℚ} (h : t ≤ s) (hv : v.fgt s = true) :
    v.fgt t = true := by
  cases v with
  | real a =>
    simp only [FVal.fgt, decide_eq_true_eq] at hv ⊢
    linarith
  | posInf => rfl
  | negInf => exact hv
  | nan => exact hv

/-! Theorems for the claims. -/

/-- C2: for every row of the flagged holes table, the warning flag is set
iff the ratio exceeds 20, the error flag is set iff the ratio exceeds 80,
and a critical (error) flag implies the warning flag. -/
theorem C2_flag_thresholds (data : List PartRecord) (row : FlaggedRow)
    (hrow : row ∈ flaggedTable data) :
    (row.has_unreachable_hole_warning = true ↔ FVal.GtQ row.ratioCol 20) ∧
    (row.has_unreachable_hole_error = true ↔ FVal.GtQ row.ratioCol 80) ∧
    (row.has_unreachable_hole_error = true →
      row.has_unreachable_hole_warning = true) := by
  obtain ⟨hr, -, rfl⟩ := List.mem_map.1 hrow
  refine ⟨?_, ?_, ?_⟩
  · exact fgt_iff_GtQ _ _
  · exact fgt_iff_GtQ _ _
  · exact fun h => fgt_le_mono (by norm_num) h

/-- C2 witness: the sample row with ratio 30 is in the flagged table of the
sample dataset. -/
theorem C2_flag_thresholds_witness :
    (row0.has_unreachable_hole_warning = true ↔ FVal.GtQ row0.ratioCol 20) ∧
    (row0.has_unreachable_hole_error = true ↔ FVal.GtQ row0.ratioCol 80) ∧
    (row0.has_unreachable_hole_error = true →
      row0.has_unreachable_hole_warning = true) :=
  C2_flag_thresholds d0 row0
    (List.mem_map_of_mem flagRow (by decide))

/-- C3: unit normalization maps `in` to 25.4, `cm` to 10 and `mm` to 1, and
raises on every other unit string, with no fallback conversion. -/
theorem C3_unit_normalization :
    get_conversion "in" = .ok 25.4 ∧ get_conversion "cm" = .ok 10 ∧
    get_conversion "mm" = .ok 1 ∧
    ∀ u : String, u ≠ "mm" → u ≠ "in" → u ≠ "cm" →
      get_conversion u =
        .error ("Conversion from " ++ u ++ " to mm is not implemented") := by
  refine ⟨rfl, rfl, rfl, fun u h1 h2 h3 => ?_⟩
  simp [get_conversion, h1, h2, h3]

/-- C3 witness: the unit `ft` is rejected. -/
theorem C3_unit_normalization_witness :
    get_conversion "ft" =
      .error ("Conversion from " ++ "ft" ++ " to mm is not implemented") :=
  C3_unit_normalization.2.2.2 "ft" (by decide) (by decide) (by decide)

/-- C10: on a hole row with radius 0 and positive length the flag
computation is total (no exception): the ratio is `inf` and both the
warning and the error flag are set. -/
theorem C10_zero_radius (hr : HoleRow) (h0 : hr.hole.radius = 0)
    (hl : 0 < hr.hole.length) :
    (flagRow hr).ratioCol = FVal.posInf ∧
    (flagRow hr).has_unreachable_hole_warning = true ∧
    (flagRow hr).has_unreachable_hole_error = true := by
  have hdiv : floatDiv hr.hole.length hr.hole.radius = FVal.posInf := by
    simp [floatDiv, h0, hl]
  refine ⟨?_, ?_, ?_⟩ <;> simp [flagRow, hdiv, FVal.fgt]

/-- C10 witness: the sample row with length 5 and radius 0. -/
theorem C10_zero_radius_witness :
    (flagRow hrZ).ratioCol = FVal.posInf ∧
    (flagRow hrZ).has_unreachable_hole_warning = true ∧
    (flagRow hrZ).has_unreachable_hole_error = true :=
  C10_zero_radius hrZ rfl (by norm_num [hrZ])

lemma convertRows_mem (piC : ℚ) :
    ∀ (rs : List FlaggedRow) (out : List FinalRow),
      convertRows piC rs = .ok out → ∀ row ∈ out,
        ∃ r ∈ rs, ∃ c : ℚ,
          get_conversion r.units = .ok c ∧ row = convertRow piC c r := by
  intro rs
  induction rs with
  | nil =>
    intro out h row hrow
    simp only [convertRows] at h
    injection h with h2
    subst h2
    simp at hrow
  | cons r rs ih =>
    intro out h row hrow
    simp only [convertRows] at h
    cases hc : get_conversion r.units with
    | error e => rw [hc] at h; exact Except.noConfusion h
    | ok c =>
      rw [hc] at h
      cases hrest : convertRows piC rs with
      | error e => rw [hrest] at h; exact Except.noConfusion h
      | ok out2 =>
        rw [hrest] at h
        injection h with h2
        subst h2
        rcases List.mem_cons.1 hrow with h1 | h2
        · exact ⟨r, List.mem_cons_self r rs, c, hc, h1⟩
        · obtain ⟨r2, hr2, c2, hc2, heq⟩ := ih out2 hrest row h2
          exact ⟨r2, List.mem_cons_of_mem r hr2, c2, hc2, heq⟩

/-- C4: every row of the converted table stores as its ratio exactly the
float quotient of the raw (pre-conversion) length and radius, while its
length and radius columns are the raw values scaled by the unit factor: the
conversion step leaves the ratio column unchanged. -/
theorem C4_ratio_preconversion (piC : ℚ) (data : List PartRecord)
    (out : List FinalRow)
    (hok : convertRows piC (flaggedTable data) = .ok out)
    (row : FinalRow) (hrow : row ∈ out) :
    ∃ hr ∈ explodeHoles data, ∃ c : ℚ,
      get_conversion hr.units = .ok c ∧
      row.ratioCol = floatDiv hr.hole.length hr.hole.radius ∧
      row.length = hr.hole.length * c ∧
      row.radius = hr.hole.radius * c := by
  obtain ⟨r, hrmem, c, hc, rfl⟩ := convertRows_mem piC _ out hok row hrow
  obtain ⟨hr, hhr, rfl⟩ := List.mem_map.1 hrmem
  refine ⟨hr, hhr, c, ?_, ?_, ?_, ?_⟩
  · simpa [flagRow] using hc
  · simp [convertRow, flagRow]
  · simp [convertRow, flagRow]
  · simp [convertRow, flagRow]

/-- C7: every row of the converted table has
`volume = pi * radius ^ 2 * length` on its own (millimetre) length and
radius columns. -/
theorem C7_volume_formula (piC : ℚ) (data : List PartRecord)
    (out : List FinalRow)
    (hok : convertRows piC (flaggedTable data) = .ok out)
    (row : FinalRow) (hrow : row ∈ out) :
    row.volume = piC * row.radius ^ 2 * row.length := by
  obtain ⟨r, hrmem, c, hc, rfl⟩ := convertRows_mem piC _ out hok row hrow
  simp [convertRow]

lemma percentageColumn_sum (counts : List ℚ) (total : ℚ) :
    (percentageColumn counts total).sum = counts.sum / total := by
  induction counts with
  | nil => simp [percentageColumn]
  | cons c cs ih =>
    simp only [percentageColumn, List.map_cons, List.sum_cons] at ih ⊢
    rw [ih, add_div]

/-- C9: whenever the absolute counts of a summary sheet partition the
sheet's population (they sum to the population total, which is nonzero),
the percentage column computed by dividing each count by the total sums to
exactly 1. -/
theorem C9_percentage_partition (counts : List ℚ) (total : ℚ)
    (htot : total ≠ 0) (hsum : counts.sum = total) :
    (percentageColumn counts total).sum = 1 := by
  rw [percentageColumn_sum, hsum, div_self htot]

/-- C9 witness: counts 1 and 2 over a population of 3. -/
theorem C9_percentage_partition_witness :
    (percentageColumn [1, 2] 3).sum = 1 :=
  C9_percentage_partition [1, 2] 3 (by norm_num) (by norm_num)

/-- C4 witness: the sample converted row of `d0`. -/
theorem C4_ratio_preconversion_witness :
    ∃ hr ∈ explodeHoles d0, ∃ c : ℚ,
      get_conversion hr.units = .ok c ∧
      final0.ratioCol = floatDiv hr.hole.length hr.hole.radius ∧
      final0.length = hr.hole.length * c ∧
      final0.radius = hr.hole.radius * c :=
  C4_ratio_preconversion 3 d0 out0 rfl final0 (List.mem_cons_self final0 [])

/-- C7 witness: the sample converted row of `d0`. -/
theorem C7_volume_formula_witness :
    final0.volume = 3 * final0.radius ^ 2 * final0.length :=
  C7_volume_formula 3 d0 out0 rfl final0 (List.mem_cons_self final0 [])

lemma holes_by_object_keys (rows : List FlaggedRow) :
    (holes_by_object rows).map Prod.fst = (rows.map (fun r => r.uuid)).dedup := by
  have h : (Prod.fst ∘ fun u => (u, aggForUuid rows u)) = id := rfl
  rw [holes_by_object, List.map_map, h, List.map_id]

lemma holes_by_object_keys_nodup (rows : List FlaggedRow) :
    ((holes_by_object rows).map Prod.fst).Nodup := by
  rw [holes_by_object_keys]
  exact List.nodup_dedup _

lemma filter_of_keys_nodup :
    ∀ (right : List (String × HolesAgg)),
      (right.map Prod.fst).Nodup → ∀ u : String,
        right.filter (fun x => x.1 == u) = [] ∨
        ∃ a, right.filter (fun x => x.1 == u) = [a] := by
  intro right
  induction right with
  | nil => intro _ u; left; rfl
  | cons b rest ih =>
    intro hnd u
    simp only [List.map_cons, List.nodup_cons] at hnd
    obtain ⟨hb, hnd2⟩ := hnd
    by_cases hbu : (b.1 == u) = true
    · right
      refine ⟨b, ?_⟩
      rw [List.filter_cons, if_pos hbu]
      have h0 : rest.filter (fun x => x.1 == u) = [] := by
        rw [List.filter_eq_nil_iff]
        intro a ha hau
        apply hb
        rw [List.mem_map]
        refine ⟨a, ha, ?_⟩
        rw [beq_iff_eq] at hau hbu
        rw [hau, hbu]
      rw [h0]
    · rw [List.filter_cons, if_neg hbu]
      exact ih hnd2 u

lemma mergeRowsFor_length (right : List (String × HolesAgg))
    (hnd : (right.map Prod.fst).Nodup) (p : PartRecord) :
    (mergeRowsFor right p).length = 1 := by
  rcases filter_of_keys_nodup right hnd p.uuid with h | ⟨a, h⟩ <;>
    simp [mergeRowsFor, h]

lemma mergeRowsFor_map_part (right : List (String × HolesAgg))
    (hnd : (right.map Prod.fst).Nodup) (p : PartRecord) :
    (mergeRowsFor right p).map OutRow.part = [p] := by
  rcases filter_of_keys_nodup right hnd p.uuid with h | ⟨a, h⟩ <;>
    simp [mergeRowsFor, h]

lemma leftMerge_length (data : List PartRecord)
    (right : List (String × HolesAgg))
    (hnd : (right.map Prod.fst).Nodup) :
    (leftMerge data right).length = data.length := by
  induction data with
  | nil => rfl
  | cons p rest ih =>
    rw [leftMerge, List.flatMap_cons, List.length_append]
    rw [leftMerge] at ih
    rw [ih, mergeRowsFor_length right hnd p, List.length_cons, Nat.add_comm]

/-- C5: the augmented part-level table written as the first output has
exactly as many rows as the input table: the left join onto the per-part
aggregates (whose keys are the deduplicated hole uuids, hence unique)
preserves cardinality for every input dataset. -/
theorem C5_join_preserves_cardinality (data : List PartRecord) :
    (outputTable data).length = data.length :=
  leftMerge_length data _ (holes_by_object_keys_nodup (flaggedTable data))

lemma mem_explodeHoles {data : List PartRecord} {hr : HoleRow} :
    hr ∈ explodeHoles data ↔
      ∃ p ∈ data, ∃ h : Hole,
        some h ∈ p.holes.getD [] ∧ hr = ⟨p.uuid, p.created, p.units, h⟩ := by
  constructor
  · intro hmem
    obtain ⟨p, hp, hh⟩ := List.mem_flatMap.1 hmem
    obtain ⟨hole, hmem2, heq⟩ := List.mem_map.1 hh
    obtain ⟨a, ha, hid⟩ := List.mem_filterMap.1 hmem2
    simp only [id_eq] at hid
    subst hid
    exact ⟨p, hp, hole, ha, heq.symm⟩
  · rintro ⟨p, hp, hole, hmem2, rfl⟩
    apply List.mem_flatMap.2
    refine ⟨p, hp, ?_⟩
    apply List.mem_map.2
    exact ⟨hole, List.mem_filterMap.2 ⟨some hole, hmem2, rfl⟩, rfl⟩

lemma uuid_in_flagged_of_key {data : List PartRecord} {u : String}
    (hu : u ∈ (holes_by_object (flaggedTable data)).map Prod.fst) :
    ∃ q ∈ data, q.uuid = u ∧ (q.holes.getD []).filterMap id ≠ [] := by
  rw [holes_by_object_keys, List.mem_dedup] at hu
  obtain ⟨fr, hfr, hfru⟩ := List.mem_map.1 hu
  obtain ⟨hrr, hhr, rfl⟩ := List.mem_map.1 hfr
  obtain ⟨q, hq, hole, hmem, rfl⟩ := mem_explodeHoles.1 hhr
  refine ⟨q, hq, ?_, ?_⟩
  · simpa [flagRow] using hfru
  · intro hnil
    have hin : hole ∈ (q.holes.getD []).filterMap id :=
      List.mem_filterMap.2 ⟨some hole, hmem, rfl⟩
    rw [hnil] at hin
    simp at hin

lemma mem_mergeRowsFor {right : List (String × HolesAgg)} {p : PartRecord}
    {row : OutRow} (hrow : row ∈ mergeRowsFor right p) :
    row.part = p ∧
      (row = ⟨p, none, none⟩ ∨
        ∃ m ∈ right, m.1 = p.uuid ∧
          row = ⟨p, some m.2.has_unreachable_hole_warning,
                    some m.2.has_unreachable_hole_error⟩) := by
  unfold mergeRowsFor at hrow
  cases hf : right.filter (fun x => x.1 == p.uuid) with
  | nil =>
    rw [hf] at hrow
    simp only [List.mem_singleton] at hrow
    subst hrow
    exact ⟨rfl, Or.inl rfl⟩
  | cons m ms =>
    rw [hf] at hrow
    obtain ⟨m2, hm2, rfl⟩ := List.mem_map.1 hrow
    have hm2f : m2 ∈ right.filter (fun x => x.1 == p.uuid) := by
      rw [hf]; exact hm2
    rw [List.mem_filter] at hm2f
    exact ⟨rfl, Or.inr ⟨m2, hm2f.1, beq_iff_eq.1 hm2f.2, rfl⟩⟩

lemma leftMerge_map_part (data : List PartRecord)
    (right : List (String × HolesAgg))
    (hnd : (right.map Prod.fst).Nodup) :
    (leftMerge data right).map OutRow.part = data := by
  induction data with
  | nil => rfl
  | cons p rest ih =>
    rw [leftMerge, List.flatMap_cons, List.map_append]
    rw [leftMerge] at ih
    rw [ih, mergeRowsFor_map_part right hnd p]
    rfl

/-- C6: the first output table keeps every original record unchanged, in
order (so its schema is the input's plus the two added flag columns), and
when the part uuids are unique, a part whose decoded hole list has no
non-null entry gets missing values in both added columns. -/
theorem C6_schema_and_missing_flags (data : List PartRecord) :
    (outputTable data).map OutRow.part = data ∧
    ∀ row ∈ outputTable data,
      (data.map PartRecord.uuid).Nodup →
      (row.part.holes.getD []).filterMap id = [] →
      row.has_unreachable_hole_warning = none ∧
      row.has_unreachable_hole_error = none := by
  constructor
  · exact leftMerge_map_part data _ (holes_by_object_keys_nodup _)
  · intro row hrow hnd hnoholes
    simp only [outputTable, leftMerge] at hrow
    obtain ⟨p, hp, hbr⟩ := List.mem_flatMap.1 hrow
    obtain ⟨hpart, hcase⟩ := mem_mergeRowsFor hbr
    rcases hcase with rfl | ⟨m, hm, hmu, rfl⟩
    · exact ⟨rfl, rfl⟩
    · exfalso
      have hkey : m.1 ∈ (holes_by_object (flaggedTable data)).map Prod.fst :=
        List.mem_map.2 ⟨m, hm, rfl⟩
      obtain ⟨q, hq, hqu, hqne⟩ := uuid_in_flagged_of_key (hmu ▸ hkey)
      have hpq : q = p := List.inj_on_of_nodup_map hnd hq hp hqu
      apply hqne
      rw [hpq]
      exact hnoholes

/-- C6 witness: on a dataset with one part with holes and one part whose
hole column is null, the output preserves the records and the second part's
row has missing flags. -/
theorem C6_schema_and_missing_flags_witness :
    ((outputTable d1).map OutRow.part = d1) ∧
    ((⟨partNone, none, none⟩ : OutRow).has_unreachable_hole_warning = none ∧
     (⟨partNone, none, none⟩ : OutRow).has_unreachable_hole_error = none) :=
  ⟨(C6_schema_and_missing_flags d1).1,
   (C6_schema_and_missing_flags d1).2 ⟨partNone, none, none⟩ (by decide)
     (by decide) rfl⟩

/-- C8: every row of the exploded hole table carries a non-null hole
descriptor drawn from a present (non-null) hole list of some part, and a
part whose hole column is null contributes no hole rows at all: removing it
from the dataset leaves the exploded table unchanged, so it is excluded
from every hole-level statistic. -/
theorem C8_no_null_hole_rows :
    (∀ (data : List PartRecord) (r : HoleRow), r ∈ explodeHoles data →
      ∃ p ∈ data, ∃ l : List (Option Hole),
        p.holes = some l ∧ some r.hole ∈ l ∧ r.uuid = p.uuid) ∧
    (∀ (pre post : List PartRecord) (p : PartRecord), p.holes = none →
      explodeHoles (pre ++ p :: post) = explodeHoles (pre ++ post)) := by
  constructor
  · intro data r hmem
    obtain ⟨p, hp, hole, hh, rfl⟩ := mem_explodeHoles.1 hmem
    cases hph : p.holes with
    | none => rw [hph] at hh; simp at hh
    | some l =>
      rw [hph] at hh
      simp only [Option.getD_some] at hh
      exact ⟨p, hp, l, hph, hh, rfl⟩
  · intro pre post p hp
    simp [explodeHoles, List.flatMap_append, hp]

/-- C8 witness: the sample row of `d0` and the part with a null hole
column. -/
theorem C8_no_null_hole_rows_witness :
    (∃ p ∈ d0, ∃ l : List (Option Hole),
        p.holes = some l ∧ some hr0.hole ∈ l ∧ hr0.uuid = p.uuid) ∧
    explodeHoles ([] ++ partNone :: []) = explodeHoles ([] ++ []) :=
  ⟨C8_no_null_hole_rows.1 d0 hr0 (by decide),
   C8_no_null_hole_rows.2 [] [] partNone rfl⟩

/-- C1 counterexample: on a dataset whose only part uses the unit `ft`, the
run fails (the unit-conversion exception), yet the augmented parquet file
has already been written: a failing run does produce one output file,
contradicting the claim that any failure aborts before either output file
is written. -/
theorem C1_counterexample :
    runPipeline 3 dBad =
      ([OutputFile.parquet],
       .error ("Conversion from " ++ "ft" ++ " to mm is not implemented")) :=
  rfl

/-- C1 amended: any failure aborts before the spreadsheet is written, but
after the augmented parquet file was written: a failing run produces
exactly the parquet output. -/
theorem C1_abort_after_parquet (piC : ℚ) (data : List PartRecord)
    (e : String) (h : (runPipeline piC data).2 = .error e) :
    (runPipeline piC data).1 = [OutputFile.parquet] := by
  simp only [runPipeline] at h ⊢
  cases hc : convertRows piC (flaggedTable data) with
  | error e2 => rfl
  | ok out =>
    rw [hc] at h
    exact Except.noConfusion h

/-- C1 amended witness: the failing sample dataset `dBad`. -/
theorem C1_abort_after_parquet_witness :
    (runPipeline 3 dBad).1 = [OutputFile.parquet] :=
  C1_abort_after_parquet 3 dBad
    ("Conversion from " ++ "ft" ++ " to mm is not implemented") rfl
